import Mathlib

/-!
Verification of the mountlib virtual-filesystem core (`cmd/mountlib/fs.go`).

The Go file defines the `FS` aggregate, the path resolver `FS.Lookup`, the
inode allocator `NewInode`, the `Nodes` sort comparator, `PollChanges`,
`Root` and `Statfs`.  `Dir` and `File` live in other files of the package;
a `Dir`'s `Lookup` behaviour is abstracted here as a function from child
name to result, following the spec contract that `Dir.Lookup` returns
either a child node or an error.
-/

namespace Mountlib

/-- Errors surfaced by the filesystem layer: the not-found error `ENOENT`
(returned by `FS.Lookup` when a path goes through a file) or an arbitrary
error coming from a directory lookup (not-found or backend failure). -/
inductive Err where
  | ENOENT : Err
  | backend (msg : String) : Err
deriving DecidableEq

/-- Model of `fs.DirEntry`: the backend's record for one path.  Only the backend
path string `Remote()` is relevant to the properties proved here. -/
structure DirEntry where
  Remote : String
deriving DecidableEq

/-- A `Node` is either a `*File` or a `*Dir` (`node.(*Dir)` type assertion in
the Go source).  A `Dir`'s `Lookup` method (defined in `dir.go`, outside
`fs.go`) is abstracted as the function held by the `dir` constructor:
given a child name it returns either a child node or an error, per the
spec contract for `Dir.Lookup`. -/
inductive Node where
  | file (entry : DirEntry) : Node
  | dir (entry : DirEntry) (lookup : String → Except Err Node) : Node

/-- The `DirEntry()` accessor of a node. -/
def Node.DirEntry : Node → DirEntry
  | .file e => e
  | .dir e _ => e

/-- The `IsFile()` accessor of a node. -/
def Node.IsFile : Node → Bool
  | .file _ => true
  | .dir _ _ => false

/-- The backend feature record: `Features().DirChangeNotify` is either
absent (`none`, the nil function pointer) or present. -/
structure Features where
  DirChangeNotify : Option Unit

/-- The backend handle `fs.Fs`: its feature flags and the listing-driven
lookup behaviour it induces on the root directory. -/
structure Fs where
  features : Features
  rootLookup : String → Except Err Node

/-- The process-wide tunables read by `NewFS` (`NoSeek`, `NoChecksum`,
`ReadOnly`, `NoModTime`, `DirCacheTime`, `PollInterval`). -/
structure Config where
  NoSeek : Bool
  NoChecksum : Bool
  ReadOnly : Bool
  NoModTime : Bool
  DirCacheTime : Nat
  PollInterval : Nat

/-- An `FS` represents the top level filing system. -/
structure FS where
  f : Fs
  root : Node
  noSeek : Bool
  noChecksum : Bool
  readOnly : Bool
  noModTime : Bool
  dirCacheTime : Nat

/-- A call made against the backend, recorded so that absence of side
effects is expressible. -/
inductive BackendCall where
  | dirChangeNotify (pollInterval : Nat) : BackendCall
deriving DecidableEq

/-- Model of `FS.PollChanges`: if the backend exposes `DirChangeNotify`, call it
(registering `root.ForgetPath`, a backend-side effect recorded in the
trace); otherwise do nothing.  Returns the receiver either way. -/
def FS.PollChanges (fsys : FS) (pollInterval : Nat) : FS × List BackendCall :=
  match fsys.f.features.DirChangeNotify with
  | some _ => (fsys, [BackendCall.dirChangeNotify pollInterval])
  | none => (fsys, [])

/-- The constructor `NewFS` creates a new filing system and root directory.  The root
`Dir` construction (`newDir` in `dir.go`) is modelled from the spec: a
directory node with empty name whose lookup behaviour is the backend's
root listing. -/
def NewFS (f : Fs) (cfg : Config) : FS :=
  let fsys : FS :=
    { f := f
      root := Node.dir ⟨""⟩ f.rootLookup
      noSeek := cfg.NoSeek
      noChecksum := cfg.NoChecksum
      readOnly := cfg.ReadOnly
      noModTime := cfg.NoModTime
      dirCacheTime := cfg.DirCacheTime }
  if cfg.PollInterval > 0 then (fsys.PollChanges cfg.PollInterval).1 else fsys

/-- Method `FS.Root` returns the root node and a nil error. -/
def FS.Root (fsys : FS) : Node × Option Err := (fsys.root, none)

/-- Method `FS.Statfs` is called to obtain file system metadata; the body is
commented out in the source and it returns nil. -/
def FS.Statfs (_fsys : FS) : Option Err := none

/-- The allocator `NewInode` creates a new unique inode number:
`atomic.AddUint64(&inodeCount, 1)` increments the shared counter and
returns the incremented value.  `uint64` arithmetic wraps modulo `2 ^ 64`.
The state (the counter) is passed explicitly; the result is
`(returned value, new counter)`. -/
def NewInode (inodeCount : Nat) : Nat × Nat :=
  let v := (inodeCount + 1) % 2 ^ 64
  (v, v)

/-- Run `n` successive `NewInode` calls from the process-start state
(counter `0`); returns the final counter and the returned values in call
order. -/
def runNewInode : Nat → Nat × List Nat
  | 0 => (0, [])
  | n + 1 =>
    let s := runNewInode n
    let r := NewInode s.1
    (r.2, s.2 ++ [r.1])

/-- Model of `strings.IndexRune(path, '/')` together with the two slices taken from
it: `breakSlash path = (name, rest)` where `name` is the part of `path`
before the first slash and `rest` the part after it.  When the path has no
slash, Go sets the remaining path to `""`, the same value produced when
the slash is the last character, so both cases yield `rest = []`. -/
def breakSlash : List Char → List Char × List Char
  | [] => ([], [])
  | c :: cs =>
    if c = '/' then ([], cs)
    else
      let p := breakSlash cs
      (c :: p.1, p.2)

theorem breakSlash_snd_le (cs : List Char) : (breakSlash cs).2.length ≤ cs.length := by
  induction cs with
  | nil => simp [breakSlash]
  | cons c cs ih =>
    by_cases h : c = '/'
    · simp [breakSlash, h]
    · simp only [breakSlash, if_neg h]
      exact Nat.le_succ_of_le ih

theorem breakSlash_snd_lt (c : Char) (cs : List Char) :
    (breakSlash (c :: cs)).2.length < (c :: cs).length := by
  by_cases h : c = '/'
  · simp [breakSlash, h]
  · simp only [breakSlash, if_neg h]
    exact Nat.lt_succ_of_le (breakSlash_snd_le cs)

/-- The loop body of `FS.Lookup`, on the path's characters: while the path is
nonempty, split off the segment before the first slash; skip it if empty;
otherwise require the current node to be a directory (else return
`ENOENT`), look the segment up in it, propagate any error, and continue
with the remaining path.  Returns the Go pair `(node, err)`. -/
def lookupGo (node : Node) (path : List Char) : Option Node × Option Err :=
  match path with
  | [] => (some node, none)
  | c :: cs =>
    let p := breakSlash (c :: cs)
    if p.1 = [] then lookupGo node p.2
    else
      match node with
      | .file _ => (none, some Err.ENOENT)
      | .dir _ lk =>
        match lk (String.mk p.1) with
        | .error e => (none, some e)
        | .ok n => lookupGo n p.2
termination_by path.length
decreasing_by
  · exact breakSlash_snd_lt c cs
  · exact breakSlash_snd_lt c cs

/-- Method `FS.Lookup` finds the Node by path starting from the root. -/
def FS.Lookup (fsys : FS) (path : String) : Option Node × Option Err :=
  lookupGo fsys.root path.data

/-- The same loop as `lookupGo`, additionally recording the names passed
to per-directory lookups, in call order.  Used to express that the loop
performs no lookup on segments past the first failure. -/
def lookupGoT (node : Node) (path : List Char) :
    (Option Node × Option Err) × List String :=
  match path with
  | [] => ((some node, none), [])
  | c :: cs =>
    let p := breakSlash (c :: cs)
    if p.1 = [] then lookupGoT node p.2
    else
      match node with
      | .file _ => ((none, some Err.ENOENT), [])
      | .dir _ lk =>
        match lk (String.mk p.1) with
        | .error e => ((none, some e), [String.mk p.1])
        | .ok n =>
          let r := lookupGoT n p.2
          (r.1, String.mk p.1 :: r.2)
termination_by path.length
decreasing_by
  · exact breakSlash_snd_lt c cs
  · exact breakSlash_snd_lt c cs

/-- The ordered segments of a path: split on `'/'`, skipping empty
segments (so leading, trailing and duplicate slashes are dropped). -/
def segsOf (cs : List Char) : List (List Char) :=
  match cs with
  | [] => []
  | c :: cs =>
    let p := breakSlash (c :: cs)
    if p.1 = [] then segsOf p.2
    else p.1 :: segsOf p.2
termination_by cs.length
decreasing_by
  · exact breakSlash_snd_lt c cs
  · exact breakSlash_snd_lt c cs

/-- The segments of a path string. -/
def segments (path : String) : List String := (segsOf path.data).map String.mk

/-- The spec-side resolver: starting from a node, sequentially call the
directory's `Lookup` on each segment in order, stopping at the first
failure; a file reached while segments remain is the not-found error. -/
def seqLookup (node : Node) : List String → Option Node × Option Err
  | [] => (some node, none)
  | s :: rest =>
    match node with
    | .file _ => (none, some Err.ENOENT)
    | .dir _ lk =>
      match lk s with
      | .error e => (none, some e)
      | .ok n => seqLookup n rest

/-- Resolver `seqLookup` together with the trace of names passed to per-directory
lookups. -/
def seqLookupT (node : Node) : List String → (Option Node × Option Err) × List String
  | [] => ((some node, none), [])
  | s :: rest =>
    match node with
    | .file _ => ((none, some Err.ENOENT), [])
    | .dir _ lk =>
      match lk s with
      | .error e => ((none, some e), [s])
      | .ok n =>
        let r := seqLookupT n rest
        (r.1, s :: r.2)

theorem seqLookupT_fst (node : Node) (ss : List String) :
    (seqLookupT node ss).1 = seqLookup node ss := by
  induction ss generalizing node with
  | nil => rfl
  | cons s rest ih =>
    cases node with
    | file e => rfl
    | dir e lk =>
      simp only [seqLookupT, seqLookup]
      cases lk s with
      | error err => rfl
      | ok n => simpa using ih n

theorem breakSlash_cons_slash (cs : List Char) : breakSlash ('/' :: cs) = ([], cs) := by
  simp [breakSlash]

theorem breakSlash_cons_ne (c : Char) (cs : List Char) (h : ¬ c = '/') :
    breakSlash (c :: cs) = (c :: (breakSlash cs).1, (breakSlash cs).2) := by
  simp [breakSlash, h]

theorem lookupGo_eq_seq_aux (n : Nat) :
    ∀ (cs : List Char), cs.length ≤ n → ∀ node : Node,
      lookupGo node cs = seqLookup node ((segsOf cs).map String.mk) := by
  induction n with
  | zero =>
    intro cs hcs node
    have hnil : cs = [] := List.length_eq_zero.mp (Nat.le_zero.mp hcs)
    subst hnil
    simp [lookupGo, segsOf, seqLookup]
  | succ n ih =>
    intro cs hcs node
    cases cs with
    | nil => simp [lookupGo, segsOf, seqLookup]
    | cons c cs =>
      have hlen : cs.length ≤ n := Nat.le_of_succ_le_succ hcs
      by_cases hc : c = '/'
      · subst hc
        rw [lookupGo.eq_def, segsOf.eq_def]
        simp only [breakSlash_cons_slash, if_pos rfl]
        exact ih cs hlen node
      · have hrest : (breakSlash cs).2.length ≤ n :=
          Nat.le_trans (breakSlash_snd_le cs) hlen
        rw [lookupGo.eq_def, segsOf.eq_def]
        simp only [breakSlash_cons_ne c cs hc]
        simp only [List.cons_ne_nil, if_neg (fun h => List.cons_ne_nil c _ h)]
        cases node with
        | file e => simp [seqLookup]
        | dir e lk =>
          simp only [List.map_cons, seqLookup]
          cases hlk : lk (String.mk (c :: (breakSlash cs).1)) with
          | error err => simp
          | ok m => simpa using ih (breakSlash cs).2 hrest m

theorem lookupGo_eq_seq (node : Node) (cs : List Char) :
    lookupGo node cs = seqLookup node ((segsOf cs).map String.mk) :=
  lookupGo_eq_seq_aux cs.length cs (Nat.le_refl _) node

theorem lookupGoT_eq_seqT_aux (n : Nat) :
    ∀ (cs : List Char), cs.length ≤ n → ∀ node : Node,
      lookupGoT node cs = seqLookupT node ((segsOf cs).map String.mk) := by
  induction n with
  | zero =>
    intro cs hcs node
    have hnil : cs = [] := List.length_eq_zero.mp (Nat.le_zero.mp hcs)
    subst hnil
    simp [lookupGoT, segsOf, seqLookupT]
  | succ n ih =>
    intro cs hcs node
    cases cs with
    | nil => simp [lookupGoT, segsOf, seqLookupT]
    | cons c cs =>
      have hlen : cs.length ≤ n := Nat.le_of_succ_le_succ hcs
      by_cases hc : c = '/'
      · subst hc
        rw [lookupGoT.eq_def, segsOf.eq_def]
        simp only [breakSlash_cons_slash, if_pos rfl]
        exact ih cs hlen node
      · have hrest : (breakSlash cs).2.length ≤ n :=
          Nat.le_trans (breakSlash_snd_le cs) hlen
        rw [lookupGoT.eq_def, segsOf.eq_def]
        simp only [breakSlash_cons_ne c cs hc]
        simp only [List.cons_ne_nil, if_neg (fun h => List.cons_ne_nil c _ h)]
        cases node with
        | file e => simp [seqLookupT]
        | dir e lk =>
          simp only [List.map_cons, seqLookupT]
          cases hlk : lk (String.mk (c :: (breakSlash cs).1)) with
          | error err => simp
          | ok m => simp [ih (breakSlash cs).2 hrest m]

theorem lookupGoT_eq_seqT (node : Node) (cs : List Char) :
    lookupGoT node cs = seqLookupT node ((segsOf cs).map String.mk) :=
  lookupGoT_eq_seqT_aux cs.length cs (Nat.le_refl _) node

theorem lookupGoT_fst (node : Node) (cs : List Char) :
    (lookupGoT node cs).1 = lookupGo node cs := by
  rw [lookupGoT_eq_seqT, lookupGo_eq_seq, seqLookupT_fst]

/-- Method `FS.Lookup` expressed on segments: the character loop agrees with the
spec-side sequential per-segment resolver. -/
theorem FS.Lookup_eq_seq (fsys : FS) (path : String) :
    fsys.Lookup path = seqLookup fsys.root (segments path) :=
  lookupGo_eq_seq fsys.root path.data

/-- Join segments with single slashes: `joinSegs [a, b, c]` is the
character list of `"a/b/c"`, with no leading, trailing or duplicate
slash. -/
def joinSegs : List (List Char) → List Char
  | [] => []
  | [s] => s
  | s :: t :: rest => s ++ '/' :: joinSegs (t :: rest)

theorem breakSlash_no_slash (s : List Char) (h : '/' ∉ s) :
    breakSlash s = (s, []) := by
  induction s with
  | nil => rfl
  | cons c cs ih =>
    have hc : ¬ c = '/' := fun hc => h (hc ▸ List.mem_cons_self c cs)
    rw [breakSlash_cons_ne c cs hc, ih (fun hm => h (List.mem_cons_of_mem c hm))]

theorem breakSlash_append (s r : List Char) (h : '/' ∉ s) :
    breakSlash (s ++ '/' :: r) = (s, r) := by
  induction s with
  | nil => simpa using breakSlash_cons_slash r
  | cons c cs ih =>
    have hc : ¬ c = '/' := fun hc => h (hc ▸ List.mem_cons_self c cs)
    rw [List.cons_append, breakSlash_cons_ne c _ hc,
      ih (fun hm => h (List.mem_cons_of_mem c hm))]

theorem segsOf_joinSegs (names : List (List Char))
    (h : ∀ s ∈ names, s ≠ [] ∧ '/' ∉ s) :
    segsOf (joinSegs names) = names := by
  induction names with
  | nil => simp [joinSegs, segsOf]
  | cons s rest ih =>
    obtain ⟨hne, hns⟩ := h s (List.mem_cons_self s rest)
    obtain ⟨c, cs, rfl⟩ := List.exists_cons_of_ne_nil hne
    cases rest with
    | nil =>
      show segsOf (c :: cs) = [c :: cs]
      rw [segsOf.eq_def]
      simp only [breakSlash_no_slash (c :: cs) hns]
      simp [segsOf]
    | cons t rest2 =>
      have hjoin : joinSegs ((c :: cs) :: t :: rest2)
          = c :: (cs ++ '/' :: joinSegs (t :: rest2)) := by
        simp [joinSegs]
      rw [hjoin, segsOf.eq_def]
      have hbs : breakSlash (c :: (cs ++ '/' :: joinSegs (t :: rest2)))
          = (c :: cs, joinSegs (t :: rest2)) := by
        have := breakSlash_append (c :: cs) (joinSegs (t :: rest2)) hns
        simpa using this
      simp only [hbs]
      rw [if_neg (fun hh => List.cons_ne_nil c cs hh)]
      rw [ih (fun u hu => h u (List.mem_cons_of_mem _ hu))]

theorem seqLookup_take_file (k : Nat) :
    ∀ (ss : List String) (node : Node) (e : DirEntry), k < ss.length →
      seqLookup node (ss.take k) = (some (Node.file e), none) →
      seqLookup node ss = (none, some Err.ENOENT) := by
  induction k with
  | zero =>
    intro ss node e hk htake
    have hnode : node = Node.file e := by
      simpa [seqLookup] using htake
    subst hnode
    cases ss with
    | nil => simp at hk
    | cons s rest => simp [seqLookup]
  | succ k ih =>
    intro ss node e hk htake
    cases ss with
    | nil => simp at hk
    | cons s rest =>
      cases node with
      | file e2 => simp [seqLookup] at htake
      | dir e2 lk =>
        rw [List.take_succ_cons] at htake
        simp only [seqLookup] at htake ⊢
        cases hlk : lk s with
        | error err => rw [hlk] at htake; simp at htake
        | ok m =>
          rw [hlk] at htake
          exact ih rest m e (Nat.lt_of_succ_lt_succ (by simpa using hk)) htake

theorem seqLookupT_take_error (k : Nat) :
    ∀ (ss : List String) (node : Node) (e : DirEntry)
      (lk : String → Except Err Node) (err : Err), k < ss.length →
      seqLookup node (ss.take k) = (some (Node.dir e lk), none) →
      lk (ss.getD k "") = .error err →
      seqLookupT node ss = ((none, some err), ss.take (k + 1)) := by
  induction k with
  | zero =>
    intro ss node e lk err hk htake hlk
    have hnode : node = Node.dir e lk := by
      simpa [seqLookup] using htake
    subst hnode
    cases ss with
    | nil => simp at hk
    | cons s rest =>
      rw [List.getD_cons_zero] at hlk
      simp [seqLookupT, hlk]
  | succ k ih =>
    intro ss node e lk err hk htake hlk
    cases ss with
    | nil => simp at hk
    | cons s rest =>
      cases node with
      | file e2 => simp [seqLookup] at htake
      | dir e2 lk2 =>
        rw [List.take_succ_cons] at htake
        simp only [seqLookup] at htake
        cases hlk2 : lk2 s with
        | error err2 => rw [hlk2] at htake; simp at htake
        | ok m =>
          rw [hlk2] at htake
          have hk2 : k < rest.length := Nat.lt_of_succ_lt_succ (by simpa using hk)
          have hget : lk (rest.getD k "") = .error err := by
            simpa [List.getD_cons_succ] using hlk
          have hrec := ih rest m e lk err hk2 htake hget
          simp [seqLookupT, hlk2, hrec]

theorem seqLookup_shape (ss : List String) :
    ∀ node : Node, (∃ n, seqLookup node ss = (some n, none)) ∨
      (∃ e, seqLookup node ss = (none, some e)) := by
  induction ss with
  | nil => intro node; exact Or.inl ⟨node, rfl⟩
  | cons s rest ih =>
    intro node
    cases node with
    | file e => exact Or.inr ⟨Err.ENOENT, rfl⟩
    | dir e lk =>
      cases hlk : lk s with
      | error err => exact Or.inr ⟨err, by simp [seqLookup, hlk]⟩
      | ok m =>
        have := ih m
        simpa [seqLookup, hlk] using this

theorem runNewInode_eq (n : Nat) :
    runNewInode n = (n % 2 ^ 64, (List.range n).map (fun k => (k + 1) % 2 ^ 64)) := by
  induction n with
  | zero => rfl
  | succ n ih =>
    rw [runNewInode, ih]
    simp only [NewInode, List.range_succ, List.map_append, List.map_cons, List.map_nil]
    rw [Nat.mod_add_mod]

/-- A `Nodes` value is a slice of `Node`. -/
abbrev Nodes := List Node

/-- The sort comparator from the source (`Nodes.Less`): node `a` is below
node `b` when `a.DirEntry().Remote() < b.DirEntry().Remote()`, the strict
lexicographic order on the backend-path strings. -/
def nodesLess (a b : Node) : Bool := decide (a.DirEntry.Remote < b.DirEntry.Remote)

/-- Modelled from the spec: the stable sort applied to a `Nodes` slice.
The sort driver (Go's standard sort package) is outside this repository;
only the comparator `Nodes.Less` is in the source.  Each element is
inserted before the first element of the sorted tail that is not strictly
below it, which keeps equal-keyed elements in input order. -/
def stableInsert (x : Node) : List Node → List Node
  | [] => [x]
  | y :: ys => if nodesLess y x then y :: stableInsert x ys else x :: y :: ys

/-- Modelled from the spec: sort a `Nodes` slice by the `Nodes.Less`
ordering, stably. -/
def sortNodes : Nodes → Nodes
  | [] => []
  | x :: xs => stableInsert x (sortNodes xs)

theorem stableInsert_perm (x : Node) (l : List Node) :
    (stableInsert x l).Perm (x :: l) := by
  induction l with
  | nil => exact List.Perm.refl _
  | cons y ys ih =>
    by_cases h : nodesLess y x
    · rw [stableInsert, if_pos h]
      exact ((ih.cons y).trans (List.Perm.swap x y ys))
    · rw [stableInsert, if_neg h]

theorem sortNodes_perm (l : Nodes) : (sortNodes l).Perm l := by
  induction l with
  | nil => exact List.Perm.refl _
  | cons x xs ih =>
    rw [sortNodes]
    exact (stableInsert_perm x (sortNodes xs)).trans (ih.cons x)

theorem stableInsert_pairwise (x : Node) (l : List Node)
    (h : List.Pairwise (fun a b => a.DirEntry.Remote ≤ b.DirEntry.Remote) l) :
    List.Pairwise (fun a b => a.DirEntry.Remote ≤ b.DirEntry.Remote) (stableInsert x l) := by
  induction l with
  | nil => exact List.pairwise_singleton _ x
  | cons y ys ih =>
    rw [List.pairwise_cons] at h
    by_cases hxy : nodesLess y x
    · rw [stableInsert, if_pos hxy]
      rw [List.pairwise_cons]
      refine ⟨?_, ih h.2⟩
      intro a ha
      have hmem : a ∈ x :: ys := (stableInsert_perm x ys).mem_iff.mp ha
      rcases List.mem_cons.mp hmem with rfl | hys
      · exact le_of_lt (of_decide_eq_true hxy)
      · exact h.1 a hys
    · rw [stableInsert, if_neg hxy]
      have hyx : x.DirEntry.Remote ≤ y.DirEntry.Remote :=
        le_of_not_lt (of_decide_eq_false (Bool.of_not_eq_true hxy))
      rw [List.pairwise_cons]
      refine ⟨?_, List.pairwise_cons.mpr h⟩
      intro a ha
      rcases List.mem_cons.mp ha with rfl | hys
      · exact hyx
      · exact le_trans hyx (h.1 a hys)

theorem sortNodes_pairwise (l : Nodes) :
    List.Pairwise (fun a b => a.DirEntry.Remote ≤ b.DirEntry.Remote) (sortNodes l) := by
  induction l with
  | nil => simp [sortNodes]
  | cons x xs ih =>
    rw [sortNodes]
    exact stableInsert_pairwise x (sortNodes xs) ih

theorem stableInsert_filter (r : String) (x : Node) (l : List Node) :
    (stableInsert x l).filter (fun n => n.DirEntry.Remote == r)
      = (x :: l).filter (fun n => n.DirEntry.Remote == r) := by
  induction l with
  | nil => rfl
  | cons y ys ih =>
    by_cases hxy : nodesLess y x
    · rw [stableInsert, if_pos hxy]
      by_cases hy : y.DirEntry.Remote = r
      · have hx : ¬ x.DirEntry.Remote = r := by
          intro hx
          have hlt : y.DirEntry.Remote < x.DirEntry.Remote := of_decide_eq_true hxy
          rw [hy, hx] at hlt
          exact lt_irrefl r hlt
        simp only [List.filter_cons]
        simp only [hy, hx, beq_iff_eq, if_true, if_false]
        rw [ih]
        simp [List.filter_cons, hx, hy]
      · simp only [List.filter_cons]
        simp only [beq_iff_eq, hy, if_false]
        rw [ih]
        simp [List.filter_cons, hy]
    · rw [stableInsert, if_neg hxy]

theorem sortNodes_filter (r : String) (l : Nodes) :
    (sortNodes l).filter (fun n => n.DirEntry.Remote == r)
      = l.filter (fun n => n.DirEntry.Remote == r) := by
  induction l with
  | nil => rfl
  | cons x xs ih =>
    rw [sortNodes, stableInsert_filter r x (sortNodes xs)]
    simp only [List.filter_cons]
    rw [ih]

/-- Example file node: the file at backend path `"a/b"`. -/
def egFileNode : Node := Node.file ⟨"a/b"⟩

/-- Lookup behaviour of the example directory `"a"`: child `"b"` is the
file, child `"err"` fails with a backend error, everything else is not
found. -/
def egDirALk : String → Except Err Node := fun s =>
  if s = "b" then Except.ok egFileNode
  else if s = "err" then Except.error (Err.backend "io")
  else Except.error Err.ENOENT

/-- Example directory node at backend path `"a"`. -/
def egDirA : Node := Node.dir ⟨"a"⟩ egDirALk

/-- Lookup behaviour of the example root: child `"a"` is the directory,
everything else is not found. -/
def egRootLk : String → Except Err Node := fun s =>
  if s = "a" then Except.ok egDirA else Except.error Err.ENOENT

/-- Example root directory. -/
def egRoot : Node := Node.dir ⟨""⟩ egRootLk

/-- Example filing system over a backend without the change-notification
capability. -/
def egFs : FS :=
  { f := { features := ⟨none⟩, rootLookup := egRootLk }
    root := egRoot
    noSeek := false
    noChecksum := false
    readOnly := false
    noModTime := false
    dirCacheTime := 0 }

theorem segments_eq_of_data (path : String) (names : List (List Char))
    (hdata : path.data = joinSegs names) (h : ∀ s ∈ names, s ≠ [] ∧ '/' ∉ s) :
    segments path = names.map String.mk := by
  unfold segments
  rw [hdata, segsOf_joinSegs names h]

theorem segments_abc : segments "a/b/c" = ["a", "b", "c"] := by
  rw [segments_eq_of_data "a/b/c" [['a'], ['b'], ['c']] (by decide) (by decide)]
  decide

theorem segments_ab : segments "a/b" = ["a", "b"] := by
  rw [segments_eq_of_data "a/b" [['a'], ['b']] (by decide) (by decide)]
  decide

theorem segments_slashy : segments "/a//b/" = ["a", "b"] := by
  have h : "/a//b/".data = ['/', 'a', '/', '/', 'b', '/'] := by decide
  unfold segments
  rw [h]
  simp [segsOf, breakSlash]

theorem segments_aerrz : segments "a/err/z" = ["a", "err", "z"] := by
  rw [segments_eq_of_data "a/err/z" [['a'], ['e', 'r', 'r'], ['z']] (by decide) (by decide)]
  decide

theorem lookup_empty (fsys : FS) : fsys.Lookup "" = (some fsys.root, none) := by
  show lookupGo fsys.root "".data = _
  rw [show "".data = ([] : List Char) from rfl, lookupGo.eq_def]

/-- C4: `FS.Lookup ""` returns the root node with no error, and every
path resolves exactly as the sequential lookup of its nonempty segments
(empty segments produced by splitting on slashes are skipped), so paths
differing only in leading, trailing or duplicated slashes — such as
`"/a//b/"` versus `"a/b"` — resolve to the same result. -/
theorem c4_empty_path_and_slash_tolerance :
    (∀ fsys : FS, fsys.Lookup "" = (some fsys.root, none))
    ∧ (∀ (fsys : FS) (path : String), fsys.Lookup path = seqLookup fsys.root (segments path))
    ∧ (∀ fsys : FS, fsys.Lookup "/a//b/" = fsys.Lookup "a/b") := by
  refine ⟨lookup_empty, FS.Lookup_eq_seq, ?_⟩
  intro fsys
  rw [FS.Lookup_eq_seq, FS.Lookup_eq_seq, segments_slashy, segments_ab]

/-- C7: when the backend lacks the directory-change-notification
capability, `PollChanges` returns the filing system unchanged with no
backend call, and calling it twice is likewise effect-free each time. -/
theorem c7_pollchanges_noop_without_capability (fsys : FS) (i j : Nat)
    (h : fsys.f.features.DirChangeNotify = none) :
    fsys.PollChanges i = (fsys, [])
    ∧ ((fsys.PollChanges i).1).PollChanges j = (fsys, []) := by
  have h1 : fsys.PollChanges i = (fsys, []) := by
    unfold FS.PollChanges
    rw [h]
  refine ⟨h1, ?_⟩
  rw [h1]
  unfold FS.PollChanges
  rw [h]

/-- Witness for C7: the example filing system has no change-notification
capability, and both registrations are no-ops. -/
theorem c7_witness :
    egFs.f.features.DirChangeNotify = none
    ∧ (egFs.PollChanges 5 = (egFs, [])
        ∧ ((egFs.PollChanges 5).1).PollChanges 7 = (egFs, [])) :=
  ⟨rfl, c7_pollchanges_noop_without_capability egFs 5 7 rfl⟩

/-- C8: for every filing system built by `NewFS`, `Root` returns the root
directory (the directory node constructed from the backend) and a nil
error; it never fails. -/
theorem c8_root_always_succeeds : ∀ (f : Fs) (cfg : Config),
    (NewFS f cfg).Root = ((NewFS f cfg).root, none)
    ∧ (NewFS f cfg).root = Node.dir ⟨""⟩ f.rootLookup := by
  intro f cfg
  refine ⟨rfl, ?_⟩
  unfold NewFS
  by_cases hp : cfg.PollInterval > 0
  · rw [if_pos hp]
    unfold FS.PollChanges
    cases f.features.DirChangeNotify <;> rfl
  · rw [if_neg hp]

/-- C9: `FS.Statfs` always returns nil and computes nothing: it is a
no-op for every filing system. -/
theorem c9_statfs_noop : ∀ fsys : FS, fsys.Statfs = none := fun _ => rfl

/-- C10: `FS.Lookup` returns exactly one of a node or an error: either a
node with nil error, or no node with a non-nil error. -/
theorem c10_lookup_exactly_one (fsys : FS) (path : String) :
    (∃ n, fsys.Lookup path = (some n, none))
    ∨ (∃ e, fsys.Lookup path = (none, some e)) := by
  rw [FS.Lookup_eq_seq]
  exact seqLookup_shape (segments path) fsys.root

/-- C1: for a path made of one or more non-empty slash-free segments
joined by single slashes (no leading, trailing or duplicate slashes),
`FS.Lookup` returns the same node and the same error as starting from the
root and sequentially calling the directory lookup on each segment in
order. -/
theorem c1_lookup_refines_seq (fsys : FS) (names : List (List Char))
    (_hne : names ≠ []) (hseg : ∀ s ∈ names, s ≠ [] ∧ '/' ∉ s) :
    fsys.Lookup (String.mk (joinSegs names))
      = seqLookup fsys.root (names.map String.mk) := by
  show lookupGo fsys.root (String.mk (joinSegs names)).data = _
  rw [show (String.mk (joinSegs names)).data = joinSegs names from rfl]
  rw [lookupGo_eq_seq, segsOf_joinSegs names hseg]

/-- Witness for C1 at the example tree and the path `"a/b"`. -/
theorem c1_witness :
    ((([['a'], ['b']] : List (List Char)) ≠ []
        ∧ ∀ s ∈ ([['a'], ['b']] : List (List Char)), s ≠ [] ∧ '/' ∉ s)
      ∧ egFs.Lookup (String.mk (joinSegs [['a'], ['b']]))
          = seqLookup egFs.root (([['a'], ['b']] : List (List Char)).map String.mk)) :=
  ⟨⟨by decide, by decide⟩,
    c1_lookup_refines_seq egFs [['a'], ['b']] (by decide) (by decide)⟩

/-- C2: whenever resolving a prefix of the path's segments reaches a file
while non-empty segments remain, `FS.Lookup` fails with `ENOENT` and
returns no node. -/
theorem c2_file_mid_path_enoent (fsys : FS) (path : String) (k : Nat)
    (e : DirEntry) (hk : k < (segments path).length)
    (hfile : seqLookup fsys.root ((segments path).take k)
        = (some (Node.file e), none)) :
    fsys.Lookup path = (none, some Err.ENOENT) := by
  rw [FS.Lookup_eq_seq]
  exact seqLookup_take_file k (segments path) fsys.root e hk hfile

/-- Witness for C2: the example tree has a file at `"a/b"` and the query
`"a/b/c"` fails with `ENOENT`. -/
theorem c2_witness :
    (2 < (segments "a/b/c").length
      ∧ seqLookup egFs.root ((segments "a/b/c").take 2)
          = (some (Node.file ⟨"a/b"⟩), none))
    ∧ egFs.Lookup "a/b/c" = (none, some Err.ENOENT) :=
  ⟨⟨by rw [segments_abc]; decide, by rw [segments_abc]; rfl⟩,
    c2_file_mid_path_enoent egFs "a/b/c" 2 ⟨"a/b"⟩
      (by rw [segments_abc]; decide) (by rw [segments_abc]; rfl)⟩

/-- C5: when a per-segment directory lookup fails, `FS.Lookup` returns
exactly that error, unmodified, and the loop performs no lookup on any
later segment: the trace of looked-up names is exactly the segments up to
and including the failing one. -/
theorem c5_error_verbatim_and_stops (fsys : FS) (path : String) (k : Nat)
    (e : DirEntry) (lk : String → Except Err Node) (err : Err)
    (hk : k < (segments path).length)
    (hdir : seqLookup fsys.root ((segments path).take k)
        = (some (Node.dir e lk), none))
    (herr : lk ((segments path).getD k "") = .error err) :
    fsys.Lookup path = (none, some err)
    ∧ (lookupGoT fsys.root path.data).2 = (segments path).take (k + 1) := by
  have hT := seqLookupT_take_error k (segments path) fsys.root e lk err hk hdir herr
  have hTeq : lookupGoT fsys.root path.data = seqLookupT fsys.root (segments path) :=
    lookupGoT_eq_seqT fsys.root path.data
  constructor
  · rw [FS.Lookup_eq_seq, ← seqLookupT_fst, hT]
  · rw [hTeq, hT]

/-- Witness for C5: in the example tree the lookup of `"err"` inside
directory `"a"` fails with a backend error; `FS.Lookup "a/err/z"`
propagates it and never looks up `"z"`. -/
theorem c5_witness :
    (1 < (segments "a/err/z").length
      ∧ seqLookup egFs.root ((segments "a/err/z").take 1)
          = (some (Node.dir ⟨"a"⟩ egDirALk), none)
      ∧ egDirALk ((segments "a/err/z").getD 1 "") = .error (Err.backend "io"))
    ∧ (egFs.Lookup "a/err/z" = (none, some (Err.backend "io"))
        ∧ (lookupGoT egFs.root "a/err/z".data).2 = (segments "a/err/z").take 2) :=
  ⟨⟨by rw [segments_aerrz]; decide, by rw [segments_aerrz]; rfl,
      by rw [segments_aerrz]; rfl⟩,
    c5_error_verbatim_and_stops egFs "a/err/z" 1 ⟨"a"⟩ egDirALk (Err.backend "io")
      (by rw [segments_aerrz]; decide) (by rw [segments_aerrz]; rfl)
      (by rw [segments_aerrz]; rfl)⟩

theorem runNewInode_snd (n : Nat) :
    (runNewInode n).2 = (List.range n).map (fun k => (k + 1) % 2 ^ 64) :=
  congrArg Prod.snd (runNewInode_eq n)

/-- C3 counterexample: the claim quantifies over every sequence of
`NewInode` calls, but the counter is a `uint64`: after `2 ^ 64` calls the
returned value wraps to `0`, so `0` is returned and the values are not
strictly increasing. -/
theorem c3_counterexample : 0 ∈ (runNewInode (2 ^ 64)).2 := by
  rw [runNewInode_snd (2 ^ 64)]
  refine List.mem_map.mpr ⟨2 ^ 64 - 1, List.mem_range.mpr (by norm_num), ?_⟩
  show (2 ^ 64 - 1 + 1) % 2 ^ 64 = 0
  norm_num

/-- C3 amended: provided fewer than `2 ^ 64` calls are made, the values
returned by successive `NewInode` calls are exactly `1, 2, ..., n` — so
they are strictly increasing (hence pairwise distinct), the first call
returns `1`, `0` is never returned, and the values after `n` calls form
the contiguous run `1..n` with no gaps. -/
theorem c3_amended (n : Nat) (h : n < 2 ^ 64) :
    (runNewInode n).2 = (List.range n).map (fun k => k + 1)
    ∧ List.Pairwise (fun a b => a < b) (runNewInode n).2
    ∧ 0 ∉ (runNewInode n).2 := by
  have heq : (runNewInode n).2 = (List.range n).map (fun k => k + 1) := by
    rw [runNewInode_eq]
    show List.map _ _ = _
    apply List.map_congr_left
    intro k hk
    have hklt : k < n := List.mem_range.mp hk
    exact Nat.mod_eq_of_lt (by omega)
  refine ⟨heq, ?_, ?_⟩
  · rw [heq]
    exact (List.pairwise_lt_range n).map _ (fun a b hab => by omega)
  · rw [heq]
    simp

/-- Witness for C3 (amended) at `n = 3`: the first three calls return
`1, 2, 3`. -/
theorem c3_witness :
    3 < 2 ^ 64
    ∧ ((runNewInode 3).2 = [1, 2, 3]
        ∧ List.Pairwise (fun a b => a < b) (runNewInode 3).2
        ∧ 0 ∉ (runNewInode 3).2) := by
  refine ⟨by norm_num, ?_⟩
  obtain ⟨h1, h2, h3⟩ := c3_amended 3 (by norm_num)
  refine ⟨?_, h2, h3⟩
  rw [h1]
  decide

theorem nodesLess_eq_toList (a b : Node) :
    nodesLess a b = decide (a.DirEntry.Remote.toList < b.DirEntry.Remote.toList) := by
  rw [nodesLess, decide_eq_decide]
  exact String.lt_iff_toList_lt

/-- C6: sorting a `Nodes` slice by the source ordering (`Nodes.Less`,
comparing `DirEntry().Remote()` strings) yields ascending lexicographic
order of the backend paths, is a permutation of the input, is stable
(entries with equal backend paths keep their input order), and in
particular the slice with backend paths `"b", "a", "c"` sorts to
`["a", "b", "c"]`. -/
theorem c6_nodes_ordering :
    (∀ ns : Nodes,
      List.Pairwise (fun a b => a.DirEntry.Remote ≤ b.DirEntry.Remote) (sortNodes ns))
    ∧ (∀ ns : Nodes, (sortNodes ns).Perm ns)
    ∧ (∀ (ns : Nodes) (r : String),
        (sortNodes ns).filter (fun n => n.DirEntry.Remote == r)
          = ns.filter (fun n => n.DirEntry.Remote == r))
    ∧ sortNodes [Node.file ⟨"b"⟩, Node.file ⟨"a"⟩, Node.file ⟨"c"⟩]
        = [Node.file ⟨"a"⟩, Node.file ⟨"b"⟩, Node.file ⟨"c"⟩] :=
  ⟨sortNodes_pairwise, sortNodes_perm, fun ns r => sortNodes_filter r ns, by
    have h1 : nodesLess (Node.file ⟨"c"⟩) (Node.file ⟨"a"⟩) = false := by
      rw [nodesLess_eq_toList]; decide
    have h2 : nodesLess (Node.file ⟨"a"⟩) (Node.file ⟨"b"⟩) = true := by
      rw [nodesLess_eq_toList]; decide
    have h3 : nodesLess (Node.file ⟨"c"⟩) (Node.file ⟨"b"⟩) = false := by
      rw [nodesLess_eq_toList]; decide
    simp [sortNodes, stableInsert, h1, h2, h3]⟩

end Mountlib
